import Mathlib

/-!
# Verification of the llamapun `examples/gensim_doc2vec.py` pipeline

A shallow embedding of the corpus-scanning, label-extraction, caching
document-iterator and two-phase training-orchestration logic of
`examples/gensim_doc2vec.py`, together with theorems settling the spec's
claims about it.

External collaborators (the Rust tokenizer behind `tokenize_path`, the gensim
trainer, the operating system's directory walk) are modelled at their
boundaries: the tokenizer is an arbitrary function `String → String`, the
trainer is modelled by the traversal contract the spec states for it, and
`os.walk` by its documented semantics (errors from scanning a directory are
silently ignored by default, so an unreadable directory contributes nothing).
-/

set_option autoImplicit false

namespace GensimDoc2Vec

/-! ## Label extraction

Embedding of the label-extraction chain in the module top level of
`gensim_doc2vec.py`:

    label = filename
    m = re.match("^([a-z][^\d]+)", filename)
    if m:
        label = m[0]
    else:
        m = re.match("^([^.])+", filename)
        if m:
            label = m[0]

`re.match` anchors at the start of the string; `m[0]` is the full matched
text.  The pattern `^([a-z][^\d]+)` matches one lowercase ASCII letter
followed by a maximal nonempty greedy run of non-digit characters (nothing
follows the group, so the greedy run never backtracks).  The pattern
`^([^.])+` matches a maximal nonempty run of non-dot characters.
-/

/-- `[a-z]`: one lowercase ASCII letter. -/
def isLowerAlpha (c : Char) : Bool :=
  'a' ≤ c && c ≤ 'z'

/-- The match of `re.match("^([a-z][^\d]+)", s)`: `none` when the regex does
not match, otherwise the characters of `m[0]`. -/
def matchOldArxiv : List Char → Option (List Char)
  | [] => none
  | c :: rest =>
    if isLowerAlpha c then
      match rest.takeWhile (fun d => !d.isDigit) with
      | [] => none
      | run => some (c :: run)
    else none

/-- The match of `re.match("^([^.])+", s)`: `none` when the regex does not
match, otherwise the characters of `m[0]`. -/
def matchBeforeDot (s : List Char) : Option (List Char) :=
  match s.takeWhile (fun d => d ≠ '.') with
  | [] => none
  | run => some run

/-- The label-extraction rule chain of the scan loop, on character lists. -/
def extractLabelChars (s : List Char) : List Char :=
  match matchOldArxiv s with
  | some m => m
  | none =>
    match matchBeforeDot s with
    | some m => m
    | none => s

/-- Label derived from a filename (`label = filename` overridden by the two
regex rules in order). -/
def extractLabel (filename : String) : String :=
  String.mk (extractLabelChars filename.data)

/-! ## Tokenization boundary

`tokenize_path` returns a byte string; the iterator does
`tokenized.decode('utf-8').split()`.  Python's `str.split()` with no
arguments splits on runs of whitespace and drops empty fields. -/

/-- Python's `s.split()` (no arguments): split on whitespace, drop empties. -/
def pySplit (s : String) : List String :=
  (s.split Char.isWhitespace).filter (fun w => w ≠ "")

/-- gensim's `TaggedDocument(words, tags)` as constructed by the iterator:
`words` is the whitespace-split token list, `tags` the singleton label
list `[self.labels_list[idx]]`. -/
structure TaggedDocument where
  words : List String
  tags : List String
deriving DecidableEq, Repr

/-! ## The caching document iterator

Embedding of `LlamapunTokenizedDocumentIterator.__iter__`:

    for idx, path in enumerate(self.path_list):
        try:
            cached = self.cached_doc[idx]
            yield cached
        except IndexError:
            ...
            tokenized = tokenize_path(path.encode('utf-8'))
            words = tokenized.decode('utf-8').split()
            item = TaggedDocument(words, [self.labels_list[idx]])
            self.cached_doc.append(item)
            yield item

`self.cached_doc[idx]` raises `IndexError` exactly when
`idx ≥ len(self.cached_doc)`, which the embedding renders as
`cache[idx]? = none`.  A traversal is a pure function from the incoming
cache state to the yielded sequence, the outgoing cache state, and the
number of `tokenize_path` invocations it made.  (The progress print at
`idx % 1000 == 0` is an observability side effect with no data flow and is
not modelled.) -/

/-- Result of one (complete) run of the generator body over a path suffix. -/
structure TraversalResult where
  yields : List TaggedDocument
  cache : List TaggedDocument
  calls : Nat
deriving DecidableEq, Repr

/-- The freshly built `TaggedDocument` for path `p` at index `idx`. -/
def mkItem (tok : String → String) (labels : List String) (p : String)
    (idx : Nat) : TaggedDocument :=
  ⟨pySplit (tok p), [labels.getD idx ""]⟩

/-- The generator loop, processing the suffix `rest` of the path list that
starts at index `idx`, with current cache `cache`. -/
def runAux (tok : String → String) (labels : List String) :
    List String → Nat → List TaggedDocument → TraversalResult
  | [], _, cache => ⟨[], cache, 0⟩
  | p :: rest, idx, cache =>
    match cache[idx]? with
    | some cached =>
      let r := runAux tok labels rest (idx + 1) cache
      ⟨cached :: r.yields, r.cache, r.calls⟩
    | none =>
      let item := mkItem tok labels p idx
      let r := runAux tok labels rest (idx + 1) (cache ++ [item])
      ⟨item :: r.yields, r.cache, r.calls + 1⟩

/-- One full run of `__iter__` over the whole path list, from cache state
`cache`: what a consumer that exhausts the generator observes. -/
def iterTraverse (tok : String → String) (paths labels : List String)
    (cache : List TaggedDocument) : TraversalResult :=
  runAux tok labels paths 0 cache

/-- The sequence of fresh items built for the path suffix `rest` starting at
index `idx` (what a run over uncached indices produces and appends). -/
def freshItems (tok : String → String) (labels : List String) :
    List String → Nat → List TaggedDocument
  | [], _ => []
  | p :: rest, idx => mkItem tok labels p idx :: freshItems tok labels rest (idx + 1)

/-- The cache effect of consuming only the first `k` items of one run of
`__iter__` and then abandoning the generator: the loop body has executed
exactly for indices `0 ≤ idx < min k |paths|` (the generator suspends at
each `yield`, so nothing past the `k`-th yield has run), which is one full
run over the first `k` paths. -/
def consumeTraversal (tok : String → String) (paths labels : List String)
    (k : Nat) (cache : List TaggedDocument) : TraversalResult :=
  runAux tok labels (paths.take k) 0 cache

/-! ## Corpus scanning

Embedding of the module-level scan loop:

    for directory, subdirList, fileList in os.walk(corpus_path):
        for filename in fileList:
            if filename.endswith(".html"):
                paths.append(directory + "/" + filename)
                ... labels.append(label)

`os.walk` is the operating-system boundary.  Its documented default
behaviour (`onerror=None`) is that an error from scanning a directory —
including an unreadable root — is silently ignored: that directory
contributes no triple and its subtree is not entered.  A filesystem is a
tree of directories, each carrying a readability flag and its plain-file
names. -/

/-- A directory tree.  `path` plays the role of the name `os.walk` reports
for the directory, `readable` whether `scandir` on it succeeds. -/
inductive FSTree where
  | dir (path : String) (readable : Bool) (subdirs : List FSTree) (files : List String)

mutual

/-- `os.walk` with default `onerror=None`: an unreadable directory is
skipped silently, together with its whole subtree. -/
def osWalk : FSTree → List (String × List String)
  | .dir path readable subdirs files =>
    if readable then (path, files) :: osWalkAll subdirs else []

/-- `os.walk` over a list of sibling subtrees, in order. -/
def osWalkAll : List FSTree → List (String × List String)
  | [] => []
  | t :: ts => osWalk t ++ osWalkAll ts

end

/-- Python's `filename.endswith(suffixStr)`: the characters of `suffixStr`
are a suffix of the characters of `filename`. -/
def pyEndsWith (filename suffixStr : String) : Bool :=
  suffixStr.data.isSuffixOf filename.data

/-- The body of the scan loop for one `os.walk` triple: append each `.html`
file's path and its extracted label to the two accumulator lists. -/
def scanDirStep (acc : List String × List String) (directory : String)
    (fileList : List String) : List String × List String :=
  fileList.foldl
    (fun acc filename =>
      if pyEndsWith filename ".html" then
        (acc.1 ++ [directory ++ "/" ++ filename],
         acc.2 ++ [extractLabel filename])
      else acc)
    acc

/-- The whole scan loop over the `os.walk` output: the parallel `paths` and
`labels` lists, both starting empty. -/
def collectCorpus (walk : List (String × List String)) :
    List String × List String :=
  walk.foldl (fun acc df => scanDirStep acc df.1 df.2) ([], [])

/-- The (path, label) pairs the scan appends, directory by directory: the
specification of `collectCorpus` used by the proofs. -/
def scanPairs : List (String × List String) → List (String × String)
  | [] => []
  | (d, fs) :: rest =>
    (fs.filter (fun fn => pyEndsWith fn ".html")).map
      (fun fn => (d ++ "/" ++ fn, extractLabel fn)) ++ scanPairs rest

/-- The scan raises no exception anywhere (the loop has no `try` and
`os.walk` suppresses its own errors), so as an error-capable computation it
always returns `ok`.  `ScanError` exists only to state the spec's claimed
failure mode. -/
inductive ScanError where
  | unreadableRoot
deriving DecidableEq, Repr

/-- The corpus scan as run by the script on a filesystem: walk the root and
run the collection loop.  No code path produces `Except.error`. -/
def scanCorpus (root : FSTree) : Except ScanError (List String × List String) :=
  Except.ok (collectCorpus (osWalk root))

/-- The cap slice `paths[0:K]` / `labels[0:K]`.  The script uses
`K = 50000`; the spec treats the cap as configuration. -/
def applyCap (K : Nat) (l : List String) : List String :=
  l.take K

/-- The cap value hard-coded in the script (`paths[0:50000]`). -/
def corpusCap : Nat := 50000

/-! ## Training orchestration

Embedding of `docs2vec(paths, labels)`.  The gensim trainer is an external
collaborator; per the spec's contract for it, `model.build_vocab(iterator)`
performs one full traversal of the iterator and records the corpus size,
and `model.train(documents=iterator, epochs=10, ...)` performs one full
traversal per epoch.  The orchestration facts under verification are which
traversals happen in which order and what the script itself does to the
learning-rate fields afterwards:

    model = Doc2Vec(vector_size=300, window=10, min_count=5, workers=cores,
                    alpha=0.025, min_alpha=0.025)
    model.build_vocab(iterator)
    model.train(documents=iterator, epochs=10, total_examples=model.corpus_count)
    model.alpha -= 0.002
    model.min_alpha = model.alpha
    model.total_examples = model.corpus_count

Learning rates are exact rationals here: the claims under test are about
when and how often the updates happen, not floating-point rounding. -/

/-- The trainer state the script reads or writes. -/
structure Doc2VecModel where
  vector_size : Nat
  window : Nat
  min_count : Nat
  workers : Nat
  alpha : ℚ
  min_alpha : ℚ
  corpus_count : Nat
  total_examples : Nat
deriving DecidableEq, Repr

/-- Observable events of one `docs2vec` run, in order: the vocabulary-build
traversal, each training-epoch traversal, and the two learning-rate field
writes the script performs after `train` returns. -/
inductive TrainEvent where
  | vocabTraversal
  | epochTraversal (e : Nat)
  | alphaWrite (a : ℚ)
  | minAlphaWrite (a : ℚ)
deriving DecidableEq, Repr

/-- The cache state after `model.train(...)`: one full traversal of the
(shared) iterator per epoch, threading the cache through. -/
def trainCacheSteps (tok : String → String) (paths labels : List String)
    (epochs : Nat) (cache : List TaggedDocument) : List TaggedDocument :=
  (List.range epochs).foldl
    (fun c _ => (iterTraverse tok paths labels c).cache) cache

/-- `docs2vec(paths, labels)`: returns the final model state, the event
trace, and the final cache of the shared iterator.  `cores` is
`multiprocessing.cpu_count()`, an environment input. -/
def docs2vec (cores : Nat) (tok : String → String)
    (paths labels : List String) :
    Doc2VecModel × List TrainEvent × List TaggedDocument :=
  let model0 : Doc2VecModel :=
    { vector_size := 300, window := 10, min_count := 5, workers := cores,
      alpha := 0.025, min_alpha := 0.025, corpus_count := 0,
      total_examples := 0 }
  let vocabRun := iterTraverse tok paths labels []
  let model1 := { model0 with corpus_count := vocabRun.yields.length }
  let cache2 := trainCacheSteps tok paths labels 10 vocabRun.cache
  let model2 := { model1 with alpha := model1.alpha - 0.002 }
  let model3 := { model2 with min_alpha := model2.alpha }
  let model4 := { model3 with total_examples := model3.corpus_count }
  (model4,
   TrainEvent.vocabTraversal ::
     (List.range 10).map TrainEvent.epochTraversal ++
       [TrainEvent.alphaWrite model2.alpha, TrainEvent.minAlphaWrite model2.alpha],
   cache2)

/-! ## Lemmas about the caching traversal -/

/-- A traversal yields one item per path, whatever the cache state. -/
theorem runAux_yields_length (tok : String → String) (labels : List String) :
    ∀ (rest : List String) (idx : Nat) (cache : List TaggedDocument),
      (runAux tok labels rest idx cache).yields.length = rest.length := by
  intro rest
  induction rest with
  | nil => intro idx cache; rfl
  | cons p r ih =>
    intro idx cache
    rcases hc : cache[idx]? with _ | c
    · simp [runAux, hc, ih]
    · simp [runAux, hc, ih]

/-- When the cache already covers the whole suffix, a run over it yields the
corresponding cache slice, changes nothing, and calls the tokenizer never. -/
theorem runAux_hits (tok : String → String) (labels : List String) :
    ∀ (rest : List String) (idx : Nat) (cache : List TaggedDocument),
      idx + rest.length ≤ cache.length →
      runAux tok labels rest idx cache =
        ⟨(cache.drop idx).take rest.length, cache, 0⟩ := by
  intro rest
  induction rest with
  | nil => intro idx cache _; simp [runAux]
  | cons p r ih =>
    intro idx cache h
    have hidx : idx < cache.length := by simp at h; omega
    have hc : cache[idx]? = some cache[idx] := List.getElem?_eq_getElem hidx
    have hr := ih (idx + 1) cache (by simp at h ⊢; omega)
    simp only [runAux, hc, hr, List.length_cons]
    rw [List.drop_eq_getElem_cons hidx, List.take_succ_cons]

/-- When the cache ends exactly at the current index, the rest of the run is
all misses: it yields the fresh items, appends them, and calls the
tokenizer once per remaining path. -/
theorem runAux_fresh (tok : String → String) (labels : List String) :
    ∀ (rest : List String) (idx : Nat) (cache : List TaggedDocument),
      cache.length = idx →
      runAux tok labels rest idx cache =
        ⟨freshItems tok labels rest idx,
         cache ++ freshItems tok labels rest idx, rest.length⟩ := by
  intro rest
  induction rest with
  | nil => intro idx cache _; simp [runAux, freshItems]
  | cons p r ih =>
    intro idx cache h
    have hc : cache[idx]? = none := List.getElem?_eq_none (by omega)
    have hlen : (cache ++ [mkItem tok labels p idx]).length = idx + 1 := by
      simp [h]
    have hr := ih (idx + 1) (cache ++ [mkItem tok labels p idx]) hlen
    simp only [runAux, hc, hr, freshItems]
    simp [List.append_assoc]

/-- Runs compose: processing `a ++ b` is processing `a`, then processing `b`
from the index and cache where `a` left off. -/
theorem runAux_append (tok : String → String) (labels : List String) :
    ∀ (a b : List String) (idx : Nat) (cache : List TaggedDocument),
      runAux tok labels (a ++ b) idx cache =
        ⟨(runAux tok labels a idx cache).yields ++
            (runAux tok labels b (idx + a.length)
              (runAux tok labels a idx cache).cache).yields,
          (runAux tok labels b (idx + a.length)
            (runAux tok labels a idx cache).cache).cache,
          (runAux tok labels a idx cache).calls +
            (runAux tok labels b (idx + a.length)
              (runAux tok labels a idx cache).cache).calls⟩ := by
  intro a
  induction a with
  | nil => intro b idx cache; simp [runAux]
  | cons p r ih =>
    intro b idx cache
    rcases hc : cache[idx]? with _ | c
    · have harith : idx + 1 + r.length = idx + (r.length + 1) := by omega
      simp [runAux, hc, ih, harith, Nat.add_right_comm]
    · have harith : idx + 1 + r.length = idx + (r.length + 1) := by omega
      simp [runAux, hc, ih, harith]

/-- `freshItems` builds one item per path. -/
theorem freshItems_length (tok : String → String) (labels : List String) :
    ∀ (rest : List String) (idx : Nat),
      (freshItems tok labels rest idx).length = rest.length := by
  intro rest
  induction rest with
  | nil => intro idx; rfl
  | cons p r ih => intro idx; simp [freshItems, ih]

/-- The item `freshItems` builds at offset `i` is the fresh document for the
`i`-th remaining path, tagged with the label at absolute index `idx + i`. -/
theorem freshItems_getElem (tok : String → String) (labels : List String) :
    ∀ (rest : List String) (idx i : Nat), i < rest.length →
      (freshItems tok labels rest idx)[i]? =
        some (mkItem tok labels (rest.getD i "") (idx + i)) := by
  intro rest
  induction rest with
  | nil => intro idx i h; simp at h
  | cons p r ih =>
    intro idx i h
    cases i with
    | zero => simp [freshItems]
    | succ n =>
      have hn : n < r.length := by simpa using h
      have harith : idx + 1 + n = idx + (n + 1) := by omega
      have := ih (idx + 1) n hn
      simp only [freshItems, List.getElem?_cons_succ, this, harith, List.getD,
        List.get?_cons_succ]

/-- Main characterization of a full traversal.  Starting from a cache that
covers the first `cache.length ≤ paths.length` documents: the cached items
are replayed, fresh items are built and appended for exactly the uncovered
paths, the yielded sequence coincides with the final cache, and the
tokenizer is called once per uncovered path. -/
theorem iterTraverse_eq (tok : String → String) (paths labels : List String)
    (cache : List TaggedDocument) (h : cache.length ≤ paths.length) :
    iterTraverse tok paths labels cache =
      ⟨cache ++ freshItems tok labels (paths.drop cache.length) cache.length,
        cache ++ freshItems tok labels (paths.drop cache.length) cache.length,
        paths.length - cache.length⟩ := by
  have hsplit : paths = paths.take cache.length ++ paths.drop cache.length :=
    (List.take_append_drop _ _).symm
  have htk : (paths.take cache.length).length = cache.length := by
    simp [Nat.min_eq_left h]
  have h1 : runAux tok labels (paths.take cache.length) 0 cache =
      ⟨cache, cache, 0⟩ := by
    have := runAux_hits tok labels (paths.take cache.length) 0 cache
      (by simp [htk])
    simpa [htk] using this
  have h2 : runAux tok labels (paths.drop cache.length) cache.length cache =
      ⟨freshItems tok labels (paths.drop cache.length) cache.length,
        cache ++ freshItems tok labels (paths.drop cache.length) cache.length,
        (paths.drop cache.length).length⟩ :=
    runAux_fresh tok labels (paths.drop cache.length) cache.length cache rfl
  calc iterTraverse tok paths labels cache
      = runAux tok labels (paths.take cache.length ++ paths.drop cache.length)
          0 cache := by rw [iterTraverse, ← hsplit]
    _ = _ := by
        rw [runAux_append, h1]
        simp [htk, h2, List.length_drop]

/-- A full traversal starting from an empty cache builds everything fresh. -/
theorem iterTraverse_from_empty (tok : String → String)
    (paths labels : List String) :
    iterTraverse tok paths labels [] =
      ⟨freshItems tok labels paths 0, freshItems tok labels paths 0,
        paths.length⟩ := by
  simpa using iterTraverse_eq tok paths labels [] (by simp)

/-- A traversal from a cache that already covers the whole corpus replays
the cache, changes nothing, and never calls the tokenizer. -/
theorem iterTraverse_full_cache (tok : String → String)
    (paths labels : List String) (cache : List TaggedDocument)
    (h : paths.length ≤ cache.length) :
    iterTraverse tok paths labels cache = ⟨cache.take paths.length, cache, 0⟩ := by
  simpa using runAux_hits tok labels paths 0 cache (by omega)

/-! ## Lemmas about the corpus scan -/

/-- One directory's scan step appends that directory's (path, label) pairs,
componentwise, to the accumulators. -/
theorem scanDirStep_eq (directory : String) :
    ∀ (fileList : List String) (acc : List String × List String),
      scanDirStep acc directory fileList =
        (acc.1 ++ ((fileList.filter (fun fn => pyEndsWith fn ".html")).map
            (fun fn => directory ++ "/" ++ fn)),
          acc.2 ++ ((fileList.filter (fun fn => pyEndsWith fn ".html")).map
            extractLabel)) := by
  intro fileList
  induction fileList with
  | nil => intro acc; simp [scanDirStep]
  | cons fn fs ih =>
    intro acc
    by_cases hfn : pyEndsWith fn ".html"
    · have : scanDirStep acc directory (fn :: fs) =
          scanDirStep (acc.1 ++ [directory ++ "/" ++ fn],
            acc.2 ++ [extractLabel fn]) directory fs := by
        simp [scanDirStep, hfn]
      rw [this, ih]
      simp [List.filter_cons, hfn]
    · have : scanDirStep acc directory (fn :: fs) =
          scanDirStep acc directory fs := by
        simp [scanDirStep, hfn]
      rw [this, ih]
      simp [List.filter_cons, hfn]

/-- The two parallel lists the scan loop builds are the first and second
projections of the (path, label) pair sequence. -/
theorem collectCorpus_eq (walk : List (String × List String)) :
    collectCorpus walk =
      ((scanPairs walk).map Prod.fst, (scanPairs walk).map Prod.snd) := by
  suffices haux : ∀ (w : List (String × List String))
      (acc : List String × List String),
      w.foldl (fun acc df => scanDirStep acc df.1 df.2) acc =
        (acc.1 ++ (scanPairs w).map Prod.fst,
          acc.2 ++ (scanPairs w).map Prod.snd) by
    simpa [collectCorpus] using haux walk ([], [])
  intro w
  induction w with
  | nil => intro acc; simp [scanPairs]
  | cons df rest ih =>
    intro acc
    rcases df with ⟨d, fs⟩
    rw [List.foldl_cons]
    show List.foldl _ (scanDirStep acc d fs) rest = _
    rw [scanDirStep_eq d fs acc, ih]
    simp [scanPairs, List.map_map, List.append_assoc, Function.comp]

/-- The two scan lists always have the same length. -/
theorem collectCorpus_length (walk : List (String × List String)) :
    (collectCorpus walk).1.length = (collectCorpus walk).2.length := by
  rw [collectCorpus_eq]; simp

/-- Every pair the scan produces is a directory-joined `.html` path together
with the label extracted from the bare filename. -/
theorem scanPairs_mem :
    ∀ (walk : List (String × List String)) (q : String × String),
      q ∈ scanPairs walk →
      ∃ d fn, q = (d ++ "/" ++ fn, extractLabel fn) ∧
        pyEndsWith fn ".html" = true := by
  intro walk
  induction walk with
  | nil => intro q hq; simp [scanPairs] at hq
  | cons df rest ih =>
    intro q hq
    rcases df with ⟨d, fs⟩
    simp only [scanPairs, List.mem_append, List.mem_map] at hq
    rcases hq with ⟨fn, hfn, rfl⟩ | hq
    · exact ⟨d, fn, rfl, (List.mem_filter.mp hfn).2⟩
    · exact ih q hq

/-! ## Claim theorems -/

/-- C1 (counterexample).  The claim's worked examples disagree with the rule
chain the code implements: `"0903.1000.html"` gets label `"0903"` (the
second regex matches the run before the first dot), not the full filename;
and `"plainname.html"` gets label `"plainname.html"` (the first regex
matches the lowercase letter `p` followed by the non-digit run
`lainname.html`, dots included), not `"plainname"`. -/
theorem label_chain_counterexample :
    extractLabel "0903.1000.html" ≠ "0903.1000.html"
    ∧ extractLabel "plainname.html" ≠ "plainname" := by
  decide

/-- C1 (amended).  The rule chain maps `"0903.1000.html"` to `"0903"`,
`"astro-ph9901001.html"` to `"astro-ph"`, `"1203.0001.html"` to `"1203"`,
and `"plainname.html"` to `"plainname.html"`: rule 1 (a lowercase letter
followed by a nonempty greedy run of non-digits) matches the whole of
`"plainname.html"`, and the all-digit-initial names fall to rule 2
(everything before the first dot). -/
theorem label_chain_examples :
    extractLabel "0903.1000.html" = "0903"
    ∧ extractLabel "astro-ph9901001.html" = "astro-ph"
    ∧ extractLabel "1203.0001.html" = "1203"
    ∧ extractLabel "plainname.html" = "plainname.html" := by
  decide

/-- C2 (counterexample).  An unreadable corpus root does not fail with a
`ScanError`: `os.walk` suppresses the scandir failure, so the scan returns
`ok` with empty lists even though the root directory holds `doc.html` —
the scan result silently under-reports the actual corpus. -/
theorem scan_unreadable_counterexample :
    scanCorpus (FSTree.dir "tests/resources" false [] ["doc.html"])
        = Except.ok ([], [])
    ∧ scanCorpus (FSTree.dir "tests/resources" false [] ["doc.html"])
        ≠ Except.error ScanError.unreadableRoot := by
  constructor <;> simp [scanCorpus, osWalk, collectCorpus]

/-- C2 (amended).  For every unreadable root path the scan raises no error
at all: `os.walk`'s default error handling skips the unreadable root, the
collection loop runs over an empty walk, and the scan returns empty path
and label lists — no document is ever tokenized, but also no `ScanError`
is reported. -/
theorem scan_unreadable_root_yields_empty (p : String) (subs : List FSTree)
    (files : List String) :
    scanCorpus (FSTree.dir p false subs files) = Except.ok ([], []) := by
  simp [scanCorpus, osWalk, collectCorpus]

/-- C3 (counterexample).  The learning rate is not decremented after each
epoch: in the event trace of a run, the traversals of epochs 0 and 1 are
adjacent, with no learning-rate write between them, and after the run the
learning rate is `0.025 - 0.002 = 0.023` — a single decrement — rather
than the `0.025 - 10 * 0.002` that one decrement per epoch would give. -/
theorem epoch_alpha_counterexample :
    ((docs2vec 1 (fun _ => "w") ["p.html"] ["p"]).2.1)[1]?
        = some (TrainEvent.epochTraversal 0)
    ∧ ((docs2vec 1 (fun _ => "w") ["p.html"] ["p"]).2.1)[2]?
        = some (TrainEvent.epochTraversal 1)
    ∧ (docs2vec 1 (fun _ => "w") ["p.html"] ["p"]).1.alpha = 23 / 1000
    ∧ (23 : ℚ) / 1000 ≠ 0.025 - 10 * 0.002 := by
  refine ⟨rfl, rfl, by norm_num [docs2vec], by norm_num⟩

/-- C3 (amended).  All ten epochs run inside the single trainer call with no
learning-rate change between them; after the whole call returns, the
script decrements `alpha` once by the fixed delta `0.002` (with no
clamping) and then sets `min_alpha` equal to the new `alpha`, so the two
fields are equal from then on. -/
theorem alpha_single_update_after_train (cores : Nat) (tok : String → String)
    (paths labels : List String) :
    (docs2vec cores tok paths labels).1.alpha = 0.025 - 0.002
    ∧ (docs2vec cores tok paths labels).1.min_alpha
        = (docs2vec cores tok paths labels).1.alpha
    ∧ (docs2vec cores tok paths labels).2.1 =
        TrainEvent.vocabTraversal ::
          (List.range 10).map TrainEvent.epochTraversal
            ++ [TrainEvent.alphaWrite (0.025 - 0.002),
                TrainEvent.minAlphaWrite (0.025 - 0.002)] :=
  ⟨rfl, rfl, rfl⟩

/-- C4.  After one full traversal of a fresh iterator instance has
completed, a second full traversal of the same instance makes exactly zero
`tokenize_path` invocations: the first traversal left the cache covering
every index, so the second run is all cache hits. -/
theorem second_traversal_zero_calls (tok : String → String)
    (paths labels : List String) :
    (iterTraverse tok paths labels
        (iterTraverse tok paths labels []).cache).calls = 0 := by
  rw [iterTraverse_from_empty]
  rw [iterTraverse_full_cache tok paths labels _
    (by rw [freshItems_length])]

/-- C5.  Every run of `__iter__` starts over from index 0 and yields exactly
one item per path; for a fixed corpus and deterministic tokenizer, two
consecutive full traversals of the same instance yield identical item
sequences in the same order. -/
theorem restart_traversal_idempotent (tok : String → String)
    (paths labels : List String) :
    (iterTraverse tok paths labels
        (iterTraverse tok paths labels []).cache).yields
      = (iterTraverse tok paths labels []).yields
    ∧ (iterTraverse tok paths labels []).yields.length = paths.length
    ∧ (iterTraverse tok paths labels
        (iterTraverse tok paths labels []).cache).yields.length
      = paths.length := by
  rw [iterTraverse_from_empty]
  rw [iterTraverse_full_cache tok paths labels _
    (by rw [freshItems_length])]
  refine ⟨?_, by rw [freshItems_length], ?_⟩
  · show (freshItems tok labels paths 0).take paths.length = _
    rw [List.take_of_length_le (by rw [freshItems_length])]
  · show ((freshItems tok labels paths 0).take paths.length).length = _
    rw [List.take_of_length_le (by rw [freshItems_length]), freshItems_length]

/-- C6.  Every iterator operation — consuming the first `k` items of a run,
for any `k` (a full run is `k ≥ |paths|`) — only ever appends to the
cache: every entry already present keeps its exact value and position, and
the cache length never exceeds the path-list length. -/
theorem cache_append_only (tok : String → String) (paths labels : List String)
    (k : Nat) (cache : List TaggedDocument)
    (h : cache.length ≤ paths.length) :
    (∀ i, i < cache.length →
        ((consumeTraversal tok paths labels k cache).cache)[i]? = cache[i]?)
    ∧ (consumeTraversal tok paths labels k cache).cache.length
        ≤ paths.length := by
  by_cases hck : cache.length ≤ (paths.take k).length
  · have heq := iterTraverse_eq tok (paths.take k) labels cache hck
    have hcache : (consumeTraversal tok paths labels k cache).cache =
        cache ++ freshItems tok labels ((paths.take k).drop cache.length)
          cache.length := by
      show (iterTraverse tok (paths.take k) labels cache).cache = _
      rw [heq]
    constructor
    · intro i hi
      rw [hcache, List.getElem?_append_left hi]
    · rw [hcache]
      simp only [List.length_append, freshItems_length, List.length_drop,
        List.length_take]
      omega
  · have hlt : (paths.take k).length ≤ cache.length := le_of_not_le hck
    have heq := runAux_hits tok labels (paths.take k) 0 cache (by omega)
    have hcache : (consumeTraversal tok paths labels k cache).cache = cache := by
      show (runAux tok labels (paths.take k) 0 cache).cache = _
      rw [heq]
    rw [hcache]
    exact ⟨fun i _ => rfl, h⟩

/-- C6 witness: concrete instantiation on a three-document corpus with a
one-entry cache. -/
theorem cache_append_only_witness :
    ([⟨["w"], ["a"]⟩] : List TaggedDocument).length
        ≤ (["a.html", "b.html", "c.html"] : List String).length
    ∧ ((∀ i, i < ([⟨["w"], ["a"]⟩] : List TaggedDocument).length →
          ((consumeTraversal (fun _ => "w") ["a.html", "b.html", "c.html"]
              ["a", "b", "c"] 2 [⟨["w"], ["a"]⟩]).cache)[i]?
            = ([⟨["w"], ["a"]⟩] : List TaggedDocument)[i]?)
        ∧ (consumeTraversal (fun _ => "w") ["a.html", "b.html", "c.html"]
            ["a", "b", "c"] 2 [⟨["w"], ["a"]⟩]).cache.length
          ≤ (["a.html", "b.html", "c.html"] : List String).length) :=
  ⟨by decide,
    cache_append_only (fun _ => "w") ["a.html", "b.html", "c.html"]
      ["a", "b", "c"] 2 [⟨["w"], ["a"]⟩] (by decide)⟩

/-- C7.  For every index `i` of a corpus produced by the scan loop, the
document cached at position `i` after a full traversal carries exactly the
singleton tag list holding the label at index `i` of the labels list, and
that label is the one the rule chain extracts from the filename of the
path at index `i`. -/
theorem cache_label_alignment (tok : String → String)
    (walk : List (String × List String)) (i : Nat)
    (h : i < (collectCorpus walk).1.length) :
    ∃ item d fn,
      ((iterTraverse tok (collectCorpus walk).1 (collectCorpus walk).2
          []).cache)[i]? = some item
      ∧ item.tags = [(collectCorpus walk).2.getD i ""]
      ∧ (collectCorpus walk).1.getD i "" = d ++ "/" ++ fn
      ∧ (collectCorpus walk).2.getD i "" = extractLabel fn := by
  have hcc := collectCorpus_eq walk
  have hp : (collectCorpus walk).1 = (scanPairs walk).map Prod.fst := by
    rw [hcc]
  have hl : (collectCorpus walk).2 = (scanPairs walk).map Prod.snd := by
    rw [hcc]
  have hip : i < (scanPairs walk).length := by
    have h2 : i < ((scanPairs walk).map Prod.fst).length := hp ▸ h
    simpa using h2
  have hq : (scanPairs walk)[i] ∈ scanPairs walk := List.getElem_mem hip
  obtain ⟨d, fn, hqeq, _⟩ := scanPairs_mem walk _ hq
  have hcache : ((iterTraverse tok (collectCorpus walk).1
      (collectCorpus walk).2 []).cache)[i]? =
      some (mkItem tok (collectCorpus walk).2
        ((collectCorpus walk).1.getD i "") (0 + i)) := by
    rw [iterTraverse_from_empty]
    exact freshItems_getElem tok _ _ 0 i h
  refine ⟨mkItem tok (collectCorpus walk).2
    ((collectCorpus walk).1.getD i "") (0 + i), d, fn, hcache, ?_, ?_, ?_⟩
  · simp [mkItem]
  · rw [hp, List.getD_eq_getElem _ _ (by simpa using hip)]
    rw [List.getElem_map Prod.fst, hqeq]
  · rw [hl, List.getD_eq_getElem _ _ (by simpa using hip)]
    rw [List.getElem_map Prod.snd, hqeq]

/-- C7 witness: concrete instantiation on a one-directory walk. -/
theorem cache_label_alignment_witness :
    0 < (collectCorpus [("tests/resources", ["1203.0001.html"])]).1.length
    ∧ ∃ item d fn,
        ((iterTraverse (fun _ => "x y")
            (collectCorpus [("tests/resources", ["1203.0001.html"])]).1
            (collectCorpus [("tests/resources", ["1203.0001.html"])]).2
            []).cache)[0]? = some item
        ∧ item.tags =
            [(collectCorpus [("tests/resources", ["1203.0001.html"])]).2.getD 0 ""]
        ∧ (collectCorpus [("tests/resources", ["1203.0001.html"])]).1.getD 0 ""
            = d ++ "/" ++ fn
        ∧ (collectCorpus [("tests/resources", ["1203.0001.html"])]).2.getD 0 ""
            = extractLabel fn :=
  ⟨by decide,
    cache_label_alignment (fun _ => "x y")
      [("tests/resources", ["1203.0001.html"])] 0 (by decide)⟩

/-- C8.  Applying the corpus-size cap `K` to a scanned corpus with more than
`K` discovered files leaves both the path list and the label list with
exactly `K` entries, and the shared cap preserves every index pairing:
below `K`, capped and uncapped lists agree entrywise. -/
theorem cap_enforcement (walk : List (String × List String)) (K : Nat)
    (hK : K < (collectCorpus walk).1.length) :
    (applyCap K (collectCorpus walk).1).length = K
    ∧ (applyCap K (collectCorpus walk).2).length = K
    ∧ ∀ i, i < K →
        (applyCap K (collectCorpus walk).1)[i]? = (collectCorpus walk).1[i]?
        ∧ (applyCap K (collectCorpus walk).2)[i]? =
            (collectCorpus walk).2[i]? := by
  have hlen := collectCorpus_length walk
  refine ⟨?_, ?_, ?_⟩
  · simp only [applyCap, List.length_take]; omega
  · simp only [applyCap, List.length_take]; omega
  · intro i hi
    constructor <;> (show (List.take K _)[i]? = _) <;>
      (rw [List.getElem?_take]; simp [hi])

/-- C8 witness: a three-file scan capped at two entries. -/
theorem cap_enforcement_witness :
    2 < (collectCorpus
        [("d", ["a.html", "b.html", "c.html"])]).1.length
    ∧ ((applyCap 2 (collectCorpus
          [("d", ["a.html", "b.html", "c.html"])]).1).length = 2
        ∧ (applyCap 2 (collectCorpus
            [("d", ["a.html", "b.html", "c.html"])]).2).length = 2
        ∧ ∀ i, i < 2 →
            (applyCap 2 (collectCorpus
                [("d", ["a.html", "b.html", "c.html"])]).1)[i]?
              = (collectCorpus [("d", ["a.html", "b.html", "c.html"])]).1[i]?
            ∧ (applyCap 2 (collectCorpus
                [("d", ["a.html", "b.html", "c.html"])]).2)[i]?
              = (collectCorpus [("d", ["a.html", "b.html", "c.html"])]).2[i]?) :=
  ⟨by decide,
    cap_enforcement [("d", ["a.html", "b.html", "c.html"])] 2 (by decide)⟩

/-- C9.  In every run of `docs2vec`, the vocabulary-build traversal occurs
strictly before every training-epoch traversal: any position of the event
trace holding the vocabulary traversal precedes any position holding an
epoch traversal. -/
theorem vocab_phase_precedes_training (cores : Nat) (tok : String → String)
    (paths labels : List String) (i j e : Nat)
    (hi : ((docs2vec cores tok paths labels).2.1)[i]?
        = some TrainEvent.vocabTraversal)
    (hj : ((docs2vec cores tok paths labels).2.1)[j]?
        = some (TrainEvent.epochTraversal e)) :
    i < j := by
  have htr : (docs2vec cores tok paths labels).2.1 =
      TrainEvent.vocabTraversal ::
        ((List.range 10).map TrainEvent.epochTraversal
          ++ [TrainEvent.alphaWrite (0.025 - 0.002),
              TrainEvent.minAlphaWrite (0.025 - 0.002)]) := rfl
  rw [htr] at hi hj
  have hj0 : j ≠ 0 := by
    intro h0
    rw [h0] at hj
    simp at hj
  have hi0 : i = 0 := by
    by_contra hne
    obtain ⟨m, rfl⟩ : ∃ m, i = m + 1 := ⟨i - 1, by omega⟩
    rw [List.getElem?_cons_succ] at hi
    obtain ⟨hm, heq⟩ := List.getElem?_eq_some.mp hi
    have hmem := heq ▸ List.getElem_mem hm
    simp at hmem
  omega

/-- C9 witness: in a concrete run, the vocabulary traversal sits at trace
position 0 and the first epoch traversal at position 1. -/
theorem vocab_phase_precedes_training_witness :
    ((docs2vec 1 (fun _ => "") ["p.html"] ["l"]).2.1)[0]?
        = some TrainEvent.vocabTraversal
    ∧ ((docs2vec 1 (fun _ => "") ["p.html"] ["l"]).2.1)[1]?
        = some (TrainEvent.epochTraversal 0)
    ∧ (0 : Nat) < 1 :=
  ⟨rfl, rfl,
    vocab_phase_precedes_training 1 (fun _ => "") ["p.html"] ["l"] 0 1 0 rfl rfl⟩

/-- C10.  The cache is always a contiguous corpus segment starting at index
0: stopping a traversal after its first `k` items leaves the cache
covering exactly indices `0 .. max (previous length) k - 1`, and a
subsequent full traversal calls the tokenizer exactly once per index
beyond that cached segment while yielding the complete sequence — one
item per path, equal to the final cache, with every freshly built item
tagged by its own index's label. -/
theorem cached_run_contiguous (tok : String → String)
    (paths labels : List String) (k : Nat) (cache : List TaggedDocument)
    (hc : cache.length ≤ paths.length) (hk : k ≤ paths.length) :
    ((consumeTraversal tok paths labels k cache).cache).length
        = max cache.length k
    ∧ (iterTraverse tok paths labels
        (consumeTraversal tok paths labels k cache).cache).calls
      = paths.length - max cache.length k
    ∧ (iterTraverse tok paths labels
        (consumeTraversal tok paths labels k cache).cache).yields
      = (iterTraverse tok paths labels
          (consumeTraversal tok paths labels k cache).cache).cache
    ∧ (iterTraverse tok paths labels
        (consumeTraversal tok paths labels k cache).cache).yields.length
      = paths.length
    ∧ ∀ i, max cache.length k ≤ i → i < paths.length →
        ∃ item,
          ((iterTraverse tok paths labels
              (consumeTraversal tok paths labels k cache).cache).yields)[i]?
            = some item ∧ item.tags = [labels.getD i ""] := by
  have htk : (paths.take k).length = k := by simp [Nat.min_eq_left hk]
  have hlen1 : ((consumeTraversal tok paths labels k cache).cache).length
      = max cache.length k := by
    by_cases hck : cache.length ≤ k
    · have heq := iterTraverse_eq tok (paths.take k) labels cache
        (by omega)
      have : (consumeTraversal tok paths labels k cache).cache =
          cache ++ freshItems tok labels ((paths.take k).drop cache.length)
            cache.length := by
        show (iterTraverse tok (paths.take k) labels cache).cache = _
        rw [heq]
      rw [this]
      simp only [List.length_append, freshItems_length, List.length_drop, htk]
      omega
    · have heq := runAux_hits tok labels (paths.take k) 0 cache (by omega)
      have : (consumeTraversal tok paths labels k cache).cache = cache := by
        show (runAux tok labels (paths.take k) 0 cache).cache = _
        rw [heq]
      rw [this]
      omega
  have hle : ((consumeTraversal tok paths labels k cache).cache).length
      ≤ paths.length := by omega
  have heq2 := iterTraverse_eq tok paths labels
    (consumeTraversal tok paths labels k cache).cache hle
  refine ⟨hlen1, ?_, ?_, ?_, ?_⟩
  · rw [heq2, ← hlen1]
  · rw [heq2]
  · rw [heq2]
    simp only [List.length_append, freshItems_length, List.length_drop]
    omega
  · intro i hmax hiN
    rw [heq2]
    have hlei : ((consumeTraversal tok paths labels k cache).cache).length
        ≤ i := by omega
    rw [List.getElem?_append_right hlei]
    have hfresh := freshItems_getElem tok labels
      (paths.drop ((consumeTraversal tok paths labels k cache).cache).length)
      ((consumeTraversal tok paths labels k cache).cache).length
      (i - ((consumeTraversal tok paths labels k cache).cache).length)
      (by simp only [List.length_drop]; omega)
    rw [hfresh]
    refine ⟨_, rfl, ?_⟩
    simp only [mkItem]
    congr 2
    omega

/-- C10 witness: three paths, first two consumed from a fresh instance, then
a full traversal. -/
theorem cached_run_contiguous_witness :
    ([] : List TaggedDocument).length
        ≤ (["a.html", "b.html", "c.html"] : List String).length
    ∧ 2 ≤ (["a.html", "b.html", "c.html"] : List String).length
    ∧ ((consumeTraversal (fun _ => "w") ["a.html", "b.html", "c.html"]
          ["a", "b", "c"] 2 []).cache).length = max ([] : List TaggedDocument).length 2 :=
  ⟨by decide, by decide,
    (cached_run_contiguous (fun _ => "w") ["a.html", "b.html", "c.html"]
      ["a", "b", "c"] 2 [] (by decide) (by decide)).1⟩

end GensimDoc2Vec
